import Mathlib

/-!
Verification of the boot-partition topology and priority model of
depthcharge-tools.

The development shallowly embeds the Python functions of
`src/depthcharge_tools/utils.py` and
`src/depthcharge_tools/depthchargectl/__init__.py`:

* the GPT kernel-partition attribute codec (the bit extractions inlined in
  `depthcharge_partitions`, and the spec's `encode`, whose implementation
  lives in the `bless`/`target` subcommands that are not among the source
  files of this snapshot);
* the partition naming scheme (`Partition.from_parts`, `Partition.devparts`);
* the disk topology fixed-point loop of `find_disks`;
* the kernel-partition enumeration loop of `depthcharge_partitions`;
* the board-identification logic of `depthchargectl.board` (explicit
  codename override, HWID regex matching, device-tree compatible
  preference).

Python machine integers are embedded as `Nat` (Python ints are unbounded),
fallible code returns `Option`, and exceptions escaping a function are
`none`/`Except.error`.  External collaborators (`cgpt`, `cros_hwid`,
`dt_compatibles`, the block-device registry) are abstracted as explicit
function arguments, mirroring the spec's §6 contract boundaries.
-/

/-! ## Boot-priority attribute codec (spec §4.4)

`depthcharge_partitions` in utils.py reads the raw attribute integer and
decodes it inline (lines 97-99):

    priority = (attr) & 0xF
    tries = (attr >> 4) & 0xF
    successful = (attr >> 8) & 0x1

The decoded `successful` field is the integer 0 or 1 (Python keeps the
masked bit as an int); the spec's boolean `false` corresponds to 0. -/

def decode_attrs (attr : Nat) : Nat × Nat × Nat :=
  (attr &&& 0xF, (attr >>> 4) &&& 0xF, (attr >>> 8) &&& 0x1)

/-- Modelled from the spec: `encode(raw, attrs) -> unsigned-integer`.  The
attribute writer lives in the `depthchargectl bless`/`target` subcommands
(`_bless.py`, `_target.py`), which are not among the source files of this
snapshot; the definition follows the spec's bit layout — bits 0-3 the
priority, bits 4-7 the tries, bit 8 the successful flag, all higher bits
of `raw` preserved unmodified. -/
def encode_attrs (raw : Nat) (a : Nat × Nat × Nat) : Nat :=
  raw / 512 * 512 + a.1 + a.2.1 * 16 + a.2.2 * 256

theorem decode_attrs_eq (attr : Nat) :
    decode_attrs attr = (attr % 16, attr / 16 % 16, attr / 256 % 2) := by
  unfold decode_attrs
  have h1 : attr &&& 0xF = attr % 16 := Nat.and_pow_two_sub_one_eq_mod attr 4
  have h2 : attr >>> 4 = attr / 16 := by rw [Nat.shiftRight_eq_div_pow]
  have h3 : attr >>> 8 = attr / 256 := by rw [Nat.shiftRight_eq_div_pow]
  have h4 : attr / 16 &&& 0xF = attr / 16 % 16 :=
    Nat.and_pow_two_sub_one_eq_mod (attr / 16) 4
  have h5 : attr / 256 &&& 0x1 = attr / 256 % 2 :=
    Nat.and_pow_two_sub_one_eq_mod (attr / 256) 1
  rw [h2, h3, h1, h4, h5]

/-- C1: for every raw attribute value, the decoder of
`depthcharge_partitions` yields priority = bits 0-3 (`raw % 16`),
tries = bits 4-7 (`raw / 16 % 16`) and successful = bit 8
(`raw / 256 % 2`, with 0 standing for the boolean false); in particular
raw 0x00F1 decodes to (priority 1, tries 15, successful 0 = false) and
raw 0x0025 decodes to (priority 5, tries 2, successful 0 = false). -/
theorem c1_decode_bits :
    (∀ raw : Nat, decode_attrs raw = (raw % 16, raw / 16 % 16, raw / 256 % 2))
      ∧ decode_attrs 0xF1 = (1, 15, 0)
      ∧ decode_attrs 0x25 = (5, 2, 0) := by
  refine ⟨decode_attrs_eq, ?_, ?_⟩ <;> decide

/-- C2: the codec round-trips — `encode raw (decode raw) = raw` for every
64-bit raw value (reserved bits preserved exactly);
`decode (encode 0 (p, t, s)) = (p, t, s)` for every priority and tries in
[0, 15] and successful bit; and `encode` changes only bits 0-8, leaving
every higher bit of its `raw` argument intact (`encode raw a / 512 =
raw / 512`). -/
theorem c2_codec_roundtrip (raw p t s : Nat) (_h64 : raw < 2 ^ 64)
    (hp : p ≤ 15) (ht : t ≤ 15) (hs : s ≤ 1) :
    encode_attrs raw (decode_attrs raw) = raw
      ∧ decode_attrs (encode_attrs 0 (p, t, s)) = (p, t, s)
      ∧ encode_attrs raw (p, t, s) / 512 = raw / 512
      ∧ encode_attrs raw (p, t, s) % 512 = p + t * 16 + s * 256 := by
  rw [decode_attrs_eq, decode_attrs_eq]
  unfold encode_attrs
  dsimp only
  refine ⟨by omega, ?_, by omega, by omega⟩
  simp only [Prod.mk.injEq]
  omega

/-- Witness for C2 at raw 0xABCD, priority 5, tries 2, successful 1. -/
theorem c2_codec_roundtrip_witness :
    encode_attrs 0xABCD (decode_attrs 0xABCD) = 0xABCD
      ∧ decode_attrs (encode_attrs 0 (5, 2, 1)) = (5, 2, 1)
      ∧ encode_attrs 0xABCD (5, 2, 1) / 512 = 0xABCD / 512
      ∧ encode_attrs 0xABCD (5, 2, 1) % 512 = 5 + 2 * 16 + 1 * 256 :=
  c2_codec_roundtrip 0xABCD 5 2 1 (by decide) (by decide) (by decide) (by decide)

/-! ## Disk topology resolver (spec §4.1, `find_disks` in utils.py)

The parent map is built from sysfs (an external collaborator); the loop of
interest is lines 55-61 of utils.py:

    phys_disks = set()
    while disks:
        phys_disks.update(*(parents.get(d, set()) for d in disks))
        if disks == phys_disks:
            break
        disks = phys_disks
        phys_disks = set()

Each iteration replaces the working set with the union of the parents of
its members, stopping when the set is empty or unchanged.  The source has
no step limit, so the embedding takes explicit fuel; `none` means the fuel
ran out before the loop exited, and a run that returns `none` for every
fuel is a non-terminating run of the Python loop. -/

def find_disks_loop (parents : String → Finset String) :
    Nat → Finset String → Option (Finset String)
  | 0, _ => none
  | fuel + 1, disks =>
    if disks = ∅ then some ∅
    else
      let phys := disks.biUnion parents
      if disks = phys then some phys
      else find_disks_loop parents fuel phys

/-- The Python loop of `find_disks` terminates on the given parent map and
start set: some amount of fuel suffices. -/
def FindDisksTerminates (parents : String → Finset String)
    (disks : Finset String) : Prop :=
  ∃ fuel, (find_disks_loop parents fuel disks).isSome

/-- A malformed parent map with a 2-cycle: devices `a` and `b` are each
recorded as the other's parent. -/
def cyc_parents : String → Finset String :=
  fun d => if d = "a" then {"b"} else if d = "b" then {"a"} else ∅

theorem cyc_parents_loop_none :
    ∀ fuel, find_disks_loop cyc_parents fuel {"a"} = none
      ∧ find_disks_loop cyc_parents fuel {"b"} = none := by
  intro fuel
  induction fuel with
  | zero => exact ⟨rfl, rfl⟩
  | succ n ih =>
    have ha : ({"a"} : Finset String).biUnion cyc_parents = {"b"} := by
      rw [Finset.singleton_biUnion]; rfl
    have hb : ({"b"} : Finset String).biUnion cyc_parents = {"a"} := by
      rw [Finset.singleton_biUnion]; rfl
    constructor
    · show find_disks_loop cyc_parents (n + 1) {"a"} = none
      unfold find_disks_loop
      rw [if_neg (by decide), ha, if_neg (by decide)]
      exact ih.2
    · show find_disks_loop cyc_parents (n + 1) {"b"} = none
      unfold find_disks_loop
      rw [if_neg (by decide), hb, if_neg (by decide)]
      exact ih.1

/-- Counterexample to C7: on the malformed parent map where `a` and `b`
are each the other's parent, the fixed-point loop of `find_disks` started
from `{a}` oscillates between `{a}` and `{b}`, never reaches a no-progress
iteration, and does not terminate (the source has no step limit). -/
theorem c7_cycle_no_termination : ¬ FindDisksTerminates cyc_parents {"a"} := by
  rintro ⟨fuel, hsome⟩
  rw [(cyc_parents_loop_none fuel).1] at hsome
  simp at hsome

/-- C7 as amended: the loop does stop as soon as an iteration makes no
progress — whenever the recomputed parent union equals the current working
set (or the set is empty), one round of the loop returns it — but there is
no reserved step limit, and on malformed parent maps containing a cycle
the loop need not terminate at all. -/
theorem c7_stall_stops (parents : String → Finset String)
    (disks : Finset String) (fuel : Nat) (hfuel : 0 < fuel)
    (hstall : disks.biUnion parents = disks) :
    find_disks_loop parents fuel disks = some disks := by
  cases fuel with
  | zero => omega
  | succ n =>
    unfold find_disks_loop
    by_cases hd : disks = ∅
    · rw [if_pos hd, hd]
    · rw [if_neg hd, if_pos hstall.symm, hstall]

/-- Witness for the amended C7: a physical disk is its own parent in the
source's parent map (utils.py lines 43-44), and the loop returns the
singleton unchanged. -/
theorem c7_stall_stops_witness :
    find_disks_loop (fun d => if d = "sda" then {"sda"} else ∅) 1 {"sda"}
      = some {"sda"} :=
  c7_stall_stops (fun d => if d = "sda" then {"sda"} else ∅) {"sda"} 1
    (by decide) (by rw [Finset.singleton_biUnion]; rfl)

/-! ## Partition addressor (spec §4.2, `Partition` in utils.py)

`Partition.from_parts` builds a device name from a disk name and a
partition number; `Partition.devparts` recovers `(disk, partno)` from a
device name:

    for s in ("boot", "rpmb", "dm-", "loop", "mtd"):
        if s in self.name: return (self.name, None)
    if re.findall("mmcblk[0-9]$", self.name): return (self.name, None)
    elif re.findall("nvme[0-9]n[0-9]$", self.name): return (self.name, None)
    elif re.findall("[0-9]p[0-9]", self.name):
        return tuple(self.name.rsplit("p", 1))
    elif re.findall("[0-9]$", self.name):
        return re.match("(.*[^0-9])([0-9]+)$", self.name).groups()
    else: return (self.name, None)

The embedding works on the device name (the `pathlib` directory prefix is
carried through unchanged by the source's `self.parent /` join and plays
no role in the naming rules).  Python regex fine print modelled exactly:
`$` matches at the end of the string or just before one final newline, and
`.` matches anything except a newline; `.partno` is recovered as a string
(Python returns the matched digits, not an int).  A `none` result of
`devparts` is the `AttributeError` the source raises when the final
`re.match` finds no match (`None.groups()`). -/

def strip_nl (l : List Char) : List Char :=
  match l.getLast? with
  | some c => if c = '\n' then l.dropLast else l
  | none => l

def starts_with : List Char → List Char → Bool
  | [], _ => true
  | _ :: _, [] => false
  | a :: as, b :: bs => a = b && starts_with as bs

def contains_sub (pat : List Char) : List Char → Bool
  | [] => starts_with pat []
  | l@(_ :: rest) => starts_with pat l || contains_sub pat rest

/-- The source's marker substrings: names containing any of these are
whole devices without a partition number. -/
def marker_hit (n : List Char) : Bool :=
  contains_sub "boot".toList n || contains_sub "rpmb".toList n ||
    contains_sub "dm-".toList n || contains_sub "loop".toList n ||
    contains_sub "mtd".toList n

/-- `re.findall("mmcblk[0-9]$", name)` is non-empty. -/
def ends_mmcblk (n : List Char) : Bool :=
  match (strip_nl n).reverse with
  | d :: 'k' :: 'l' :: 'b' :: 'c' :: 'm' :: 'm' :: _ => d.isDigit
  | _ => false

/-- `re.findall("nvme[0-9]n[0-9]$", name)` is non-empty. -/
def ends_nvme (n : List Char) : Bool :=
  match (strip_nl n).reverse with
  | d2 :: 'n' :: d1 :: 'e' :: 'm' :: 'v' :: 'n' :: _ => d2.isDigit && d1.isDigit
  | _ => false

/-- `re.findall("[0-9]$", name)` is non-empty. -/
def ends_digit_re (n : List Char) : Bool :=
  match (strip_nl n).getLast? with
  | some c => c.isDigit
  | none => false

/-- A `[0-9]p[0-9]` occurrence starting at the given head character. -/
def dpd_at (a : Char) : List Char → Bool
  | p :: b :: _ => a.isDigit && (p = 'p') && b.isDigit
  | _ => false

/-- `re.findall("[0-9]p[0-9]", name)` is non-empty. -/
def has_digit_p_digit : List Char → Bool
  | [] => false
  | a :: t => dpd_at a t || has_digit_p_digit t

/-- `name.rsplit("p", 1)`: split at the last occurrence of `c`, `none`
when `c` does not occur. -/
def rsplit_last (c : Char) : List Char → Option (List Char × List Char)
  | [] => none
  | a :: rest =>
    match rsplit_last c rest with
    | some (pre, post) => some (a :: pre, post)
    | none => if a = c then some ([], rest) else none

/-- `re.match("(.*[^0-9])([0-9]+)$", name)`: group 1 is everything up to
the last non-digit before the trailing digit run, group 2 the trailing
digit run; `$` may sit before one final newline, and the `.*` part cannot
cross a newline.  `none` is a failed match. -/
def re_trailing_digits (n : List Char) : Option (List Char × List Char) :=
  let rev := (strip_nl n).reverse
  let digits := rev.takeWhile Char.isDigit
  let rest := rev.dropWhile Char.isDigit
  match digits, rest with
  | [], _ => none
  | _, [] => none
  | _ :: _, _ :: restA =>
    if '\n' ∈ restA then none else some (rest.reverse, digits.reverse)

/-- `Partition.devparts` (utils.py lines 176-190). -/
def devparts (name : String) : Option (String × Option String) :=
  let n := name.toList
  if marker_hit n then some (name, none)
  else if ends_mmcblk n then some (name, none)
  else if ends_nvme n then some (name, none)
  else if has_digit_p_digit n then
    match rsplit_last 'p' n with
    | some (pre, post) => some (pre.asString, some post.asString)
    | none => none
  else if ends_digit_re n then
    match re_trailing_digits n with
    | some (pre, post) => some (pre.asString, some post.asString)
    | none => none
  else some (name, none)

/-- `Partition.from_parts` (utils.py lines 158-165): a `p` separator is
inserted when the disk name's last character satisfies
`disk[-1].isnumeric()`; `none` is the `IndexError` of `disk[-1]` on an
empty disk name.  Python's `str.isnumeric` consults the Unicode database
(it is true for the ASCII digits `0`-`9` and also for every other
character of Unicode numeric type, e.g. `'½'`); like the other external
predicates of this development it is abstracted as the `isnum` argument,
which the theorems constrain by the one fact the source relies on:
every ASCII digit is numeric.  Note the asymmetry with `devparts`, whose
regexes use the ASCII class `[0-9]` only — a disk ending in a numeric
non-digit character gets the separator inserted but does not round-trip
(formalised in the last conjunct of `c3_naming_roundtrip`). -/
def from_parts (isnum : Char → Bool) (disk : String) (partno : Option Nat) :
    Option String :=
  match partno with
  | none => some disk
  | some k =>
    match disk.toList.getLast? with
    | none => none
    | some c =>
      if isnum c then some (disk ++ "p" ++ toString k)
      else some (disk ++ toString k)

/-- A sample of Python's Unicode `isnumeric`: true on the ASCII digits
and on the numeric non-digit character `'½'` (VULGAR FRACTION ONE HALF),
which exercises the branch the ASCII `[0-9]` regexes of `devparts`
cannot see. -/
def isnumeric_model (c : Char) : Bool := c.isDigit || c = '½'

/-- Counterexample to C3: the disk name `loop` does not end in a digit,
but the partition `from_parts "loop" 1` builds is classified by the
marker rule of `devparts`, so `.disk`/`.partno` do not recover
`("loop", 1)`. -/
theorem c3_marker_roundtrip_cex :
    from_parts isnumeric_model "loop" (some 1) = some "loop1"
      ∧ devparts "loop1" = some ("loop1", none)
      ∧ devparts "loop1" ≠ some ("loop", some "1") := by
  refine ⟨?_, ?_, ?_⟩ <;> decide

/-- Counterexample to C8: on the all-digit device name `7`, the final
fallback `re.match("(.*[^0-9])([0-9]+)$", "7")` of `devparts` finds no
match and the source raises `AttributeError` (`None.groups()`) instead of
returning a pair. -/
theorem c8_all_digits_raises_cex : devparts "7" = none := by decide

/-! ### Character and decimal-string facts used by the naming proofs -/

theorem asString_toList (s : String) : s.toList.asString = s := by
  cases s
  rfl

theorem digit_ne_newline {c : Char} (h : c.isDigit = true) : c ≠ '\n' := by
  rintro rfl
  exact absurd h (by decide)

theorem digit_ne_p {c : Char} (h : c.isDigit = true) : c ≠ 'p' := by
  rintro rfl
  exact absurd h (by decide)

theorem strip_nl_of_no_newline {l : List Char} (h : '\n' ∉ l) : strip_nl l = l := by
  unfold strip_nl
  cases hl : l.getLast? with
  | none => rfl
  | some c =>
    have hc : c ∈ l := List.mem_of_getLast?_eq_some hl
    dsimp only
    rw [if_neg (fun he : c = '\n' => h (he ▸ hc))]

theorem digitChar_isDigit : ∀ m : Nat, m < 10 → (Nat.digitChar m).isDigit = true := by
  decide

theorem toDigitsCore_digits :
    ∀ (fuel n : Nat) (ds : List Char), (∀ c ∈ ds, c.isDigit = true) →
      ∀ c ∈ Nat.toDigitsCore 10 fuel n ds, c.isDigit = true := by
  intro fuel
  induction fuel with
  | zero =>
    intro n ds h c hc
    exact h c hc
  | succ f ih =>
    intro n ds h c hc
    have hd : (Nat.digitChar (n % 10)).isDigit = true :=
      digitChar_isDigit (n % 10) (Nat.mod_lt n (by omega))
    have hds : ∀ x ∈ Nat.digitChar (n % 10) :: ds, x.isDigit = true := by
      intro x hx
      rcases List.mem_cons.mp hx with rfl | hx
      · exact hd
      · exact h x hx
    unfold Nat.toDigitsCore at hc
    by_cases hz : n / 10 = 0
    · rw [if_pos hz] at hc
      exact hds c hc
    · rw [if_neg hz] at hc
      exact ih (n / 10) _ hds c hc

theorem toDigitsCore_ne_nil :
    ∀ (fuel n : Nat) (ds : List Char), ds ≠ [] →
      Nat.toDigitsCore 10 fuel n ds ≠ [] := by
  intro fuel
  induction fuel with
  | zero =>
    intro n ds h
    exact h
  | succ f ih =>
    intro n ds h
    unfold Nat.toDigitsCore
    by_cases hz : n / 10 = 0
    · rw [if_pos hz]
      exact List.cons_ne_nil _ _
    · rw [if_neg hz]
      exact ih (n / 10) _ (List.cons_ne_nil _ _)

theorem toString_nat_toList (n : Nat) : (toString n).toList = Nat.toDigits 10 n := by
  show (Nat.toDigits 10 n).asString.toList = Nat.toDigits 10 n
  rfl

theorem toString_nat_digits (n : Nat) :
    ∀ c ∈ (toString n).toList, c.isDigit = true := by
  rw [toString_nat_toList]
  exact toDigitsCore_digits (n + 1) n [] (by intro c hc; cases hc)

theorem toString_nat_ne_nil (n : Nat) : (toString n).toList ≠ [] := by
  rw [toString_nat_toList]
  unfold Nat.toDigits Nat.toDigitsCore
  by_cases hz : n / 10 = 0
  · rw [if_pos hz]
    exact List.cons_ne_nil _ _
  · rw [if_neg hz]
    exact toDigitsCore_ne_nil n (n / 10) _ (List.cons_ne_nil _ _)

theorem takeWhile_append_all {p : Char → Bool} :
    ∀ l1 l2 : List Char, (∀ c ∈ l1, p c = true) →
      (l1 ++ l2).takeWhile p = l1 ++ l2.takeWhile p := by
  intro l1
  induction l1 with
  | nil => intro l2 _; rfl
  | cons a t ih =>
    intro l2 h
    have ha : p a = true := h a (List.mem_cons_self a t)
    have ih2 := ih l2 (fun c hc => h c (List.mem_cons_of_mem a hc))
    simp [List.takeWhile_cons, ha, ih2]

theorem dropWhile_append_all {p : Char → Bool} :
    ∀ l1 l2 : List Char, (∀ c ∈ l1, p c = true) →
      (l1 ++ l2).dropWhile p = l2.dropWhile p := by
  intro l1
  induction l1 with
  | nil => intro l2 _; rfl
  | cons a t ih =>
    intro l2 h
    have ha : p a = true := h a (List.mem_cons_self a t)
    have ih2 := ih l2 (fun c hc => h c (List.mem_cons_of_mem a hc))
    simp [List.dropWhile_cons, ha, ih2]

/-! ### Substring, `[0-9]p[0-9]` and `rsplit` facts -/

theorem mem_of_starts_with :
    ∀ p l : List Char, starts_with p l = true → ∀ c ∈ p, c ∈ l := by
  intro p
  induction p with
  | nil =>
    intro l _ c hc
    cases hc
  | cons a t ih =>
    intro l h c hc
    cases l with
    | nil => exact absurd h (by simp [starts_with])
    | cons b bs =>
      simp only [starts_with, Bool.and_eq_true, decide_eq_true_eq] at h
      rcases List.mem_cons.mp hc with rfl | hc
      · exact h.1 ▸ List.mem_cons_self b bs
      · exact List.mem_cons_of_mem b (ih bs h.2 c hc)

theorem mem_of_contains_sub {p : List Char} :
    ∀ l : List Char, contains_sub p l = true → ∀ c ∈ p, c ∈ l := by
  intro l
  induction l with
  | nil =>
    intro h c hc
    unfold contains_sub at h
    exact mem_of_starts_with p [] h c hc
  | cons x rest ih =>
    intro h c hc
    unfold contains_sub at h
    rcases Bool.or_eq_true_iff.mp h with h1 | h2
    · exact mem_of_starts_with p (x :: rest) h1 c hc
    · exact List.mem_cons_of_mem x (ih h2 c hc)

theorem marker_hit_of_digits {l : List Char}
    (h : ∀ c ∈ l, c.isDigit = true) : marker_hit l = false := by
  unfold marker_hit
  have k : ∀ p : List Char, (∃ c, c ∈ p ∧ c.isDigit = false) →
      contains_sub p l = false := by
    rintro p ⟨c, hcp, hcd⟩
    cases hcs : contains_sub p l
    · rfl
    · have := h c (mem_of_contains_sub l hcs c hcp)
      rw [this] at hcd
      cases hcd
  rw [k _ ⟨'b', by decide, by decide⟩, k _ ⟨'r', by decide, by decide⟩,
    k _ ⟨'d', by decide, by decide⟩, k _ ⟨'l', by decide, by decide⟩,
    k _ ⟨'m', by decide, by decide⟩]
  rfl

theorem dpd_at_p_mem {a : Char} {t : List Char} (h : dpd_at a t = true) :
    'p' ∈ t := by
  unfold dpd_at at h
  cases t with
  | nil => cases h
  | cons x ts =>
    cases ts with
    | nil => cases h
    | cons y r =>
      simp only [Bool.and_eq_true, decide_eq_true_eq] at h
      exact h.1.2 ▸ List.mem_cons_self x (y :: r)

theorem has_dpd_p_mem : ∀ l : List Char, has_digit_p_digit l = true → 'p' ∈ l := by
  intro l
  induction l with
  | nil => intro h; cases h
  | cons a t ih =>
    intro h
    unfold has_digit_p_digit at h
    rcases Bool.or_eq_true_iff.mp h with h1 | h2
    · exact List.mem_cons_of_mem a (dpd_at_p_mem h1)
    · exact List.mem_cons_of_mem a (ih h2)

theorem has_dpd_no_p {l : List Char} (h : 'p' ∉ l) : has_digit_p_digit l = false := by
  cases hd : has_digit_p_digit l
  · rfl
  · exact absurd (has_dpd_p_mem l hd) h

theorem has_dpd_append (u v : List Char) (a b : Char)
    (ha : a.isDigit = true) (hb : b.isDigit = true) :
    has_digit_p_digit (u ++ a :: 'p' :: b :: v) = true := by
  induction u with
  | nil =>
    show has_digit_p_digit (a :: 'p' :: b :: v) = true
    unfold has_digit_p_digit
    unfold dpd_at
    simp [ha, hb]
  | cons x xs ih =>
    show has_digit_p_digit (x :: (xs ++ a :: 'p' :: b :: v)) = true
    unfold has_digit_p_digit
    rw [ih]
    simp

theorem rsplit_last_none {c : Char} : ∀ l : List Char, c ∉ l → rsplit_last c l = none := by
  intro l
  induction l with
  | nil => intro _; rfl
  | cons a rest ih =>
    intro h
    unfold rsplit_last
    rw [ih (fun hm => h (List.mem_cons_of_mem a hm))]
    rw [if_neg (fun he : a = c => h (he ▸ List.mem_cons_self a rest))]

theorem rsplit_last_isSome {c : Char} :
    ∀ l : List Char, c ∈ l → (rsplit_last c l).isSome = true := by
  intro l
  induction l with
  | nil => intro h; cases h
  | cons a rest ih =>
    intro h
    unfold rsplit_last
    cases hr : rsplit_last c rest with
    | some pr => simp
    | none =>
      have hcr : c ∉ rest := by
        intro hm
        rcases Option.isSome_iff_exists.mp (ih hm) with ⟨pr, hpr⟩
        rw [hpr] at hr
        cases hr
      have hac : a = c := by
        rcases List.mem_cons.mp h with rfl | hm
        · rfl
        · exact absurd hm hcr
      rw [if_pos hac]
      simp

theorem rsplit_last_append {c : Char} :
    ∀ pre post : List Char, c ∉ post →
      rsplit_last c (pre ++ c :: post) = some (pre, post) := by
  intro pre
  induction pre with
  | nil =>
    intro post h
    show rsplit_last c (c :: post) = some ([], post)
    unfold rsplit_last
    rw [rsplit_last_none post h, if_pos rfl]
  | cons a pr ih =>
    intro post h
    show rsplit_last c (a :: (pr ++ c :: post)) = some (a :: pr, post)
    unfold rsplit_last
    rw [ih post h]

/-! ### The final fallback regex of `devparts` on a well-formed name -/

theorem toList_str_append (a b : String) : (a ++ b).toList = a.toList ++ b.toList := by
  simp [String.toList, String.data_append]

theorem reverse_cons_of_getLast {dl : List Char} {c0 : Char}
    (hlast : dl.getLast? = some c0) : ∃ t, dl.reverse = c0 :: t := by
  cases hr : dl.reverse with
  | nil =>
    have hnil : dl = [] := by simpa using congrArg List.reverse hr
    rw [hnil] at hlast
    cases hlast
  | cons x xs =>
    have hx : dl.getLast? = some x := by
      rw [← List.head?_reverse, hr]
      rfl
    rw [hlast] at hx
    injection hx with hx
    subst hx
    exact ⟨xs, rfl⟩

theorem re_trailing_append {dl ds : List Char} {c0 : Char}
    (hlast : dl.getLast? = some c0) (hc0 : c0.isDigit = false)
    (hds : ds ≠ []) (hdig : ∀ c ∈ ds, c.isDigit = true)
    (hnl : '\n' ∉ dl) :
    re_trailing_digits (dl ++ ds) = some (dl, ds) := by
  have hnl2 : '\n' ∉ dl ++ ds := by
    intro hm
    rcases List.mem_append.mp hm with h | h
    · exact hnl h
    · exact absurd (hdig _ h) (by decide)
  obtain ⟨t, ht⟩ := reverse_cons_of_getLast hlast
  have hrev : (dl ++ ds).reverse = ds.reverse ++ c0 :: t := by
    rw [List.reverse_append, ht]
  have hdigr : ∀ c ∈ ds.reverse, c.isDigit = true :=
    fun c hc => hdig c (List.mem_reverse.mp hc)
  have htw : (ds.reverse ++ c0 :: t).takeWhile Char.isDigit = ds.reverse := by
    rw [takeWhile_append_all _ _ hdigr]
    simp [List.takeWhile_cons, hc0]
  have hdw : (ds.reverse ++ c0 :: t).dropWhile Char.isDigit = c0 :: t := by
    rw [dropWhile_append_all _ _ hdigr]
    simp [List.dropWhile_cons, hc0]
  obtain ⟨d0, dd, hdd⟩ :=
    List.exists_cons_of_ne_nil (show ds.reverse ≠ [] by simpa using hds)
  have hnt : '\n' ∉ t := by
    intro hm
    have : '\n' ∈ dl.reverse := by
      rw [ht]
      exact List.mem_cons_of_mem _ hm
    exact hnl (List.mem_reverse.mp this)
  simp only [re_trailing_digits]
  rw [strip_nl_of_no_newline hnl2, hrev, htw, hdw, hdd]
  dsimp only
  rw [if_neg hnt, ← hdd, ← ht]
  simp

/-- C3 as amended: with `isnum` standing for Python's Unicode
`str.isnumeric` (constrained by the fact the source relies on: every
ASCII digit is numeric), the `from_parts`/`devparts` round-trip holds for
every positive partition number and newline-free disk name whose produced
name contains no marker substring and does not match the whole-disk
`mmcblk`/`nvme` patterns.  If the disk's last character is not numeric
(and the produced name has no `<digit>p<digit>` occurrence), the produced
name is `disk ++ partno` and `devparts` recovers the disk and the decimal
partition number exactly; if the disk's last character is an ASCII digit,
the produced name contains a `p` separator and round-trips identically.
(The original claim fails without those side conditions: see the `loop`
counterexample.  `.partno` is recovered as the decimal string, which is
how the source returns it.)  The last conjunct pins the remaining gap: a
disk ending in a numeric character that is not an ASCII digit, such as
`a½`, gets the separator inserted but is mis-split by the ASCII regexes
of `devparts`, so it does not round-trip. -/
theorem c3_naming_roundtrip (isnum : Char → Bool) (disk : String)
    (partno : Nat) (_hpos : 0 < partno)
    (hnl : '\n' ∉ disk.toList)
    (hdignum : ∀ ch : Char, ch.isDigit = true → isnum ch = true) :
    (∀ c, disk.toList.getLast? = some c → isnum c = false →
      marker_hit (disk ++ toString partno).toList = false →
      ends_mmcblk (disk ++ toString partno).toList = false →
      ends_nvme (disk ++ toString partno).toList = false →
      has_digit_p_digit (disk ++ toString partno).toList = false →
      from_parts isnum disk (some partno) = some (disk ++ toString partno)
        ∧ devparts (disk ++ toString partno) = some (disk, some (toString partno)))
    ∧ (∀ c, disk.toList.getLast? = some c → c.isDigit = true →
      marker_hit (disk ++ "p" ++ toString partno).toList = false →
      ends_mmcblk (disk ++ "p" ++ toString partno).toList = false →
      ends_nvme (disk ++ "p" ++ toString partno).toList = false →
      from_parts isnum disk (some partno) = some (disk ++ "p" ++ toString partno)
        ∧ 'p' ∈ (disk ++ "p" ++ toString partno).toList
        ∧ devparts (disk ++ "p" ++ toString partno)
            = some (disk, some (toString partno)))
    ∧ (from_parts isnumeric_model "a½" (some 2) = some "a½p2"
        ∧ devparts "a½p2" = some ("a½p", some "2")
        ∧ devparts "a½p2" ≠ some ("a½", some "2")) := by
  have hdsne := toString_nat_ne_nil partno
  have hdsdig := toString_nat_digits partno
  refine ⟨?_, ?_, by decide, by decide, by decide⟩
  · intro c hlast hnumf hm hmm hnv hdpd
    have hcd : c.isDigit = false := by
      cases hd : c.isDigit
      · rfl
      · rw [hdignum c hd] at hnumf
        cases hnumf
    have hfp : from_parts isnum disk (some partno)
        = some (disk ++ toString partno) := by
      unfold from_parts
      rw [hlast]
      dsimp only
      rw [hnumf]
      simp
    have htl : (disk ++ toString partno).toList
        = disk.toList ++ (toString partno).toList :=
      toList_str_append disk (toString partno)
    have hnl2 : '\n' ∉ (disk ++ toString partno).toList := by
      rw [htl]
      intro hm2
      rcases List.mem_append.mp hm2 with h | h
      · exact hnl h
      · exact absurd (hdsdig _ h) (by decide)
    obtain ⟨d, hd⟩ : ∃ d, (toString partno).toList.getLast? = some d := by
      cases hgl : (toString partno).toList.getLast? with
      | none => exact absurd (by simpa using hgl) hdsne
      | some d => exact ⟨d, rfl⟩
    have hddig : d.isDigit = true := hdsdig d (List.mem_of_getLast?_eq_some hd)
    have hedr : ends_digit_re (disk ++ toString partno).toList = true := by
      unfold ends_digit_re
      rw [strip_nl_of_no_newline hnl2, htl, List.getLast?_append, hd]
      exact hddig
    have hret : re_trailing_digits (disk ++ toString partno).toList
        = some (disk.toList, (toString partno).toList) := by
      rw [htl]
      exact re_trailing_append hlast hcd hdsne hdsdig hnl
    refine ⟨hfp, ?_⟩
    unfold devparts
    simp only [hm, hmm, hnv, hdpd, hedr, Bool.false_eq_true, if_false, if_true,
      hret]
    rw [asString_toList, asString_toList]
  · intro c hlast hcd hm hmm hnv
    have hfp : from_parts isnum disk (some partno)
        = some (disk ++ "p" ++ toString partno) := by
      unfold from_parts
      rw [hlast]
      dsimp only
      rw [hdignum c hcd]
      simp
    have htl : (disk ++ "p" ++ toString partno).toList
        = disk.toList ++ 'p' :: (toString partno).toList := by
      rw [toList_str_append, toList_str_append, List.append_assoc]
      rfl
    have hpmem : 'p' ∈ (disk ++ "p" ++ toString partno).toList := by
      rw [htl]
      exact List.mem_append.mpr (Or.inr (List.mem_cons_self _ _))
    obtain ⟨t, ht⟩ := reverse_cons_of_getLast hlast
    have hdl : disk.toList = t.reverse ++ [c] := by
      have := congrArg List.reverse ht
      simpa using this
    obtain ⟨d0, ds', hds'⟩ := List.exists_cons_of_ne_nil hdsne
    have hd0 : d0.isDigit = true :=
      hdsdig d0 (by rw [hds']; exact List.mem_cons_self _ _)
    have hdpd : has_digit_p_digit (disk ++ "p" ++ toString partno).toList
        = true := by
      rw [htl, hdl, hds']
      have hshift : t.reverse ++ [c] ++ 'p' :: d0 :: ds'
          = t.reverse ++ c :: 'p' :: d0 :: ds' := by
        simp
      rw [hshift]
      exact has_dpd_append t.reverse ds' c d0 hcd hd0
    have hrs : rsplit_last 'p' (disk ++ "p" ++ toString partno).toList
        = some (disk.toList, (toString partno).toList) := by
      rw [htl]
      apply rsplit_last_append
      intro hm2
      exact absurd (hdsdig _ hm2) (by decide)
    refine ⟨hfp, hpmem, ?_⟩
    unfold devparts
    simp only [hm, hmm, hnv, hdpd, Bool.false_eq_true, if_false, if_true, hrs]
    rw [asString_toList, asString_toList]

/-- Witness for the amended C3, at the `isnumeric_model` sample of the
Unicode predicate: `sda` + 1 round-trips without a separator, `mmcblk0` +
2 round-trips through `mmcblk0p2`, and the numeric non-digit ending `a½`
gets the separator but is mis-split. -/
theorem c3_naming_roundtrip_witness :
    from_parts isnumeric_model "sda" (some 1) = some ("sda" ++ toString 1)
      ∧ devparts ("sda" ++ toString 1) = some ("sda", some (toString 1))
      ∧ from_parts isnumeric_model "mmcblk0" (some 2)
          = some ("mmcblk0" ++ "p" ++ toString 2)
      ∧ 'p' ∈ ("mmcblk0" ++ "p" ++ toString 2).toList
      ∧ devparts ("mmcblk0" ++ "p" ++ toString 2)
          = some ("mmcblk0", some (toString 2))
      ∧ from_parts isnumeric_model "a½" (some 2) = some "a½p2"
      ∧ devparts "a½p2" = some ("a½p", some "2") := by
  have hnum : ∀ ch : Char, ch.isDigit = true → isnumeric_model ch = true := by
    intro ch h
    unfold isnumeric_model
    rw [h]
    rfl
  have hc3 := c3_naming_roundtrip isnumeric_model "sda" 1 (by decide)
    (by decide) hnum
  have hA := hc3.1 'a'
    (by decide) (by decide) (by decide) (by decide) (by decide) (by decide)
  have hB := (c3_naming_roundtrip isnumeric_model "mmcblk0" 2 (by decide)
      (by decide) hnum).2.1 '0'
    (by decide) (by decide) (by decide) (by decide) (by decide)
  exact ⟨hA.1, hA.2, hB.1, hB.2.1, hB.2.2, hc3.2.2.1, hc3.2.2.2.1⟩

/-! ### `devparts` on all-digit and marker names -/

theorem ends_mmcblk_of_digits {l : List Char}
    (h : ∀ c ∈ l, c.isDigit = true) : ends_mmcblk l = false := by
  have hsnl : strip_nl l = l :=
    strip_nl_of_no_newline (fun hm => absurd (h _ hm) (by decide))
  unfold ends_mmcblk
  rw [hsnl]
  split
  · rename_i heq
    have hk : 'k' ∈ l.reverse := by rw [heq]; simp
    exact absurd (h _ (List.mem_reverse.mp hk)) (by decide)
  · rfl

theorem ends_nvme_of_digits {l : List Char}
    (h : ∀ c ∈ l, c.isDigit = true) : ends_nvme l = false := by
  have hsnl : strip_nl l = l :=
    strip_nl_of_no_newline (fun hm => absurd (h _ hm) (by decide))
  unfold ends_nvme
  rw [hsnl]
  split
  · rename_i heq
    have hk : 'v' ∈ l.reverse := by rw [heq]; simp
    exact absurd (h _ (List.mem_reverse.mp hk)) (by decide)
  · rfl

theorem ends_digit_re_of_digits {l : List Char} (hne : l ≠ [])
    (h : ∀ c ∈ l, c.isDigit = true) : ends_digit_re l = true := by
  have hsnl : strip_nl l = l :=
    strip_nl_of_no_newline (fun hm => absurd (h _ hm) (by decide))
  unfold ends_digit_re
  rw [hsnl]
  cases hgl : l.getLast? with
  | none => exact absurd (by simpa using hgl) hne
  | some d =>
    dsimp only
    exact h d (List.mem_of_getLast?_eq_some hgl)

theorem re_trailing_of_digits {l : List Char}
    (h : ∀ c ∈ l, c.isDigit = true) : re_trailing_digits l = none := by
  have hsnl : strip_nl l = l :=
    strip_nl_of_no_newline (fun hm => absurd (h _ hm) (by decide))
  simp only [re_trailing_digits]
  rw [hsnl]
  have hdw : l.reverse.dropWhile Char.isDigit = [] := by
    rw [List.dropWhile_eq_nil_iff]
    intro c hc
    exact h c (List.mem_reverse.mp hc)
  rw [hdw]
  cases l.reverse.takeWhile Char.isDigit <;> rfl

theorem re_trailing_none_all_digits {l : List Char} (hnl : '\n' ∉ l)
    (hlast : ends_digit_re l = true)
    (hnone : re_trailing_digits l = none) :
    l ≠ [] ∧ ∀ c ∈ l, c.isDigit = true := by
  have hsnl : strip_nl l = l := strip_nl_of_no_newline hnl
  unfold ends_digit_re at hlast
  rw [hsnl] at hlast
  cases hgl : l.getLast? with
  | none =>
    rw [hgl] at hlast
    cases hlast
  | some d =>
    rw [hgl] at hlast
    dsimp only at hlast
    have hne : l ≠ [] := by
      intro he
      rw [he] at hgl
      cases hgl
    obtain ⟨t, ht⟩ := reverse_cons_of_getLast hgl
    simp only [re_trailing_digits] at hnone
    rw [hsnl, ht] at hnone
    simp only [List.takeWhile_cons, List.dropWhile_cons, hlast, if_true] at hnone
    cases hdw : t.dropWhile Char.isDigit with
    | nil =>
      have htd : ∀ c ∈ t, c.isDigit = true := by
        have hh := List.dropWhile_eq_nil_iff.mp hdw
        intro c hc
        exact hh c hc
      refine ⟨hne, ?_⟩
      intro c hc
      have hcr : c ∈ l.reverse := List.mem_reverse.mpr hc
      rw [ht] at hcr
      rcases List.mem_cons.mp hcr with rfl | hct
      · exact hlast
      · exact htd c hct
    | cons x xs =>
      rw [hdw] at hnone
      dsimp only at hnone
      by_cases hx : '\n' ∈ xs
      · have hxt : '\n' ∈ t := by
          have hmem : '\n' ∈ t.dropWhile Char.isDigit := by
            rw [hdw]
            exact List.mem_cons_of_mem _ hx
          exact (List.dropWhile_sublist Char.isDigit).subset hmem
        have : '\n' ∈ l := by
          refine List.mem_reverse.mp ?_
          rw [ht]
          exact List.mem_cons_of_mem d hxt
        exact absurd this hnl
      · rw [if_neg hx] at hnone
        cases hnone

/-- C8 as amended: for every newline-free device name, `devparts` returns
a `(disk, partno)` pair — marker names classify as having no partition
number, and names matching no recognized partitioned shape fall back to
`(name, none)` — except that a non-empty name consisting entirely of
digits makes the final fallback `re.match` fail, and the source raises
`AttributeError` instead of returning a pair (the `none` case, exactly
characterised by the iff). -/
theorem c8_devparts_total (name : String) (hnl : '\n' ∉ name.toList) :
    (devparts name = none
        ↔ name.toList ≠ [] ∧ ∀ c ∈ name.toList, c.isDigit = true)
      ∧ (marker_hit name.toList = true → devparts name = some (name, none))
      ∧ (marker_hit name.toList = false → ends_mmcblk name.toList = false →
          ends_nvme name.toList = false →
          has_digit_p_digit name.toList = false →
          ends_digit_re name.toList = false →
          devparts name = some (name, none)) := by
  refine ⟨⟨?_, ?_⟩, ?_, ?_⟩
  · intro h
    simp only [devparts] at h
    by_cases h1 : marker_hit name.toList = true
    · rw [if_pos h1] at h
      simp at h
    · rw [if_neg h1] at h
      by_cases h2 : ends_mmcblk name.toList = true
      · rw [if_pos h2] at h
        simp at h
      · rw [if_neg h2] at h
        by_cases h3 : ends_nvme name.toList = true
        · rw [if_pos h3] at h
          simp at h
        · rw [if_neg h3] at h
          by_cases h4 : has_digit_p_digit name.toList = true
          · rw [if_pos h4] at h
            obtain ⟨pr, hpr⟩ := Option.isSome_iff_exists.mp
              (rsplit_last_isSome _ (has_dpd_p_mem _ h4))
            rw [hpr] at h
            simp at h
          · rw [if_neg h4] at h
            by_cases h5 : ends_digit_re name.toList = true
            · rw [if_pos h5] at h
              cases hre : re_trailing_digits name.toList with
              | some pr =>
                rw [hre] at h
                simp at h
              | none => exact re_trailing_none_all_digits hnl h5 hre
            · rw [if_neg h5] at h
              simp at h
  · rintro ⟨hne, hdig⟩
    have hp : 'p' ∉ name.toList := fun hm => absurd (hdig _ hm) (by decide)
    simp only [devparts, marker_hit_of_digits hdig, ends_mmcblk_of_digits hdig,
      ends_nvme_of_digits hdig, has_dpd_no_p hp,
      ends_digit_re_of_digits hne hdig, re_trailing_of_digits hdig,
      Bool.false_eq_true, if_false, if_true]
  · intro h1
    simp only [devparts, h1, if_true]
  · intro h1 h2 h3 h4 h5
    simp only [devparts, h1, h2, h3, h4, h5, Bool.false_eq_true, if_false]

/-- Witness for the amended C8 at the all-digit name `7` (the exception
case) and the marker name `mmcblk0boot0` (classified whole-device). -/
theorem c8_devparts_total_witness :
    (devparts "7" = none ↔ "7".toList ≠ [] ∧ ∀ c ∈ "7".toList, c.isDigit = true)
      ∧ devparts "mmcblk0boot0" = some ("mmcblk0boot0", none) := by
  refine ⟨(c8_devparts_total "7" (by decide)).1, ?_⟩
  exact (c8_devparts_total "mmcblk0boot0" (by decide)).2.1 (by decide)

/-! ## Kernel partition enumerator (spec §4.3, `depthcharge_partitions`)

utils.py lines 89-102: `cgpt find -t kernel` lists the partitions (an
external collaborator, here the `parts` argument), then for each partition
`cgpt show -A -i partno disk` is read and parsed with `int(proc.stdout,
16)`; the external read is the `read_attr` argument, with `none` standing
for a failed read (non-zero exit / unparsable output, which raises in the
source).  There is no `try`/`except` around the loop: an exception thrown
for any partition aborts the whole enumeration, which the embedding
renders as an overall `none`. -/

def depthcharge_partitions (read_attr : String → Option Nat) :
    List String → Option (List (String × Nat × Nat × Nat))
  | [] => some []
  | p :: rest =>
    match read_attr p with
    | none => none
    | some attr =>
      match depthcharge_partitions read_attr rest with
      | none => none
      | some out => some ((p, decode_attrs attr) :: out)

/-- Counterexample to C9: with two kernel partitions of which the second
one's attribute read fails, the source's enumeration loop raises and
returns nothing at all — the first partition's decoded tuple is not
returned. -/
theorem c9_enum_read_failure_cex :
    depthcharge_partitions
        (fun p => if p = "sda2" then none else some 0xF1) ["sda1", "sda2"]
      = none := by
  decide

/-- C9 as amended: a failed attribute read is fatal to the whole
enumeration — if any listed partition's read fails the enumeration
returns nothing (the exception propagates), and only when every read
succeeds is the full decoded list returned. -/
theorem c9_enum_failure_fatal (read_attr : String → Option Nat)
    (parts : List String) :
    ((∃ p ∈ parts, read_attr p = none) →
        depthcharge_partitions read_attr parts = none)
      ∧ ((∀ p ∈ parts, (read_attr p).isSome = true) →
        (depthcharge_partitions read_attr parts).isSome = true) := by
  induction parts with
  | nil =>
    constructor
    · rintro ⟨p, hp, _⟩
      cases hp
    · intro _
      rfl
  | cons q rest ih =>
    constructor
    · rintro ⟨p, hp, hnone⟩
      show (match read_attr q with
        | none => none
        | some attr =>
          match depthcharge_partitions read_attr rest with
          | none => none
          | some out => some ((q, decode_attrs attr) :: out)) = none
      rcases List.mem_cons.mp hp with rfl | hmem
      · rw [hnone]
      · cases hq : read_attr q with
        | none => rfl
        | some attr =>
          rw [ih.1 ⟨p, hmem, hnone⟩]
    · intro hall
      show (match read_attr q with
        | none => none
        | some attr =>
          match depthcharge_partitions read_attr rest with
          | none => none
          | some out => some ((q, decode_attrs attr) :: out)).isSome = true
      obtain ⟨attr, hq⟩ := Option.isSome_iff_exists.mp
        (hall q (List.mem_cons_self q rest))
      rw [hq]
      obtain ⟨out, hout⟩ := Option.isSome_iff_exists.mp
        (ih.2 (fun p hp => hall p (List.mem_cons_of_mem q hp)))
      rw [hout]
      rfl

/-! ## Board identifier (spec §4.5, `depthchargectl.board`)

`depthchargectl/__init__.py` lines 123-198.  The configuration parser
builds `boards = {section["codename"]: section for ...}` — a dict, so its
items list (the `boards` argument here) has pairwise-distinct codename
keys and preserves configuration order; lookups on such a list via
`find?` agree with the dict lookup.  The `cros_hwid()` and
`dt_compatibles()` external queries are the `hwid` and `compatibles`
arguments, and Python's `re.match` is the `rem` argument: `rem pat hwid =
none` models an exception from `re.match` (which the source's bare
`except:` turns into a non-match, as it does the `TypeError` from a
missing pattern). -/

structure BoardSection where
  hwid_pat : Option String
  dt_compat : Option String
deriving DecidableEq

/-- The `hwid_match` predicate of `depthchargectl.board` (lines 146-152). -/
def hwid_match (rem : String → String → Option Bool) (hwid : String)
    (item : String × BoardSection) : Bool :=
  match item.2.hwid_pat with
  | none => false
  | some pat =>
    match rem pat hwid with
    | none => false
    | some b => b

/-- Python's `list.index`: the first index of `c`, `none` when absent
(where the source's `.index` raises `ValueError`). -/
def list_index (c : String) : List String → Option Nat
  | [] => none
  | x :: xs => if x = c then some 0 else (list_index c xs).map (· + 1)

/-- The `compat_preference` key of `depthchargectl.board` (lines
170-179).  The source's ranks are the ints `0 ..< compatibles.length`
(found), `len(compatibles)` (the `None` sentinel) and `float("inf")`
(absent from the list, or no `dt-compatible` configured — both raise
`ValueError` inside the `try`).  `inf` is embedded as
`compatibles.length + 1`, which preserves every comparison and every tie
among these values. -/
def compat_preference (compatibles : List String)
    (item : Option (String × BoardSection)) : Nat :=
  match item with
  | none => compatibles.length
  | some (_, sec) =>
    match sec.dt_compat with
    | none => compatibles.length + 1
    | some c =>
      match list_index c compatibles with
      | some i => i
      | none => compatibles.length + 1

/-- Python's `min(iterable, key=f)` over `a :: l`: the first element
attaining the minimal key (replacement only on strictly smaller keys). -/
def min_key_first {α : Type} (f : α → Nat) (a : α) (l : List α) : α :=
  l.foldl (fun b x => if f x < f b then x else b) a

inductive BoardError
  | unknownBoard (codename : String)
  | notDetected
deriving DecidableEq

/-- `depthchargectl.board` (lines 123-198): explicit codename override
(from the `--board` argument or the `board` config key), then first
HWID-pattern match in configuration order, then the device-tree
compatible preference `min`, else failure. -/
def board (passed config_board : Option String)
    (boards : List (String × BoardSection)) (hwid : String)
    (rem : String → String → Option Bool) (compatibles : List String) :
    Except BoardError BoardSection :=
  let codename := match passed with
    | some c => some c
    | none => config_board
  match codename with
  | some c =>
    match boards.find? (fun item => item.1 == c) with
    | some item => .ok item.2
    | none => .error (.unknownBoard c)
  | none =>
    match (boards.filter (hwid_match rem hwid)).head? with
    | some item => .ok item.2
    | none =>
      match min_key_first (compat_preference compatibles) none
          (boards.map some) with
      | some item => .ok item.2
      | none => .error .notDetected

/-! ### A model of Python `re.match` for the concrete patterns in play

The source delegates pattern matching to Python's `re` module (an
external collaborator).  For the spec's concrete scenario the fragment of
the regex language that occurs (`^`, literals, `.`, `*` on a single atom,
`$`) is modelled directly: `re.match` anchors at the start only, `.`
matches any character but a newline, and `$` matches at the end or just
before one final newline.  The matcher takes fuel (each step shrinks
tokens-plus-input, so `length + length + 1` always suffices) to stay
structurally recursive and kernel-computable. -/

inductive RAtom
  | lit (c : Char)
  | dot
deriving DecidableEq

def ratom_match : RAtom → Char → Bool
  | .lit a, c => a = c
  | .dot, c => c ≠ '\n'

def ratom_of (c : Char) : RAtom :=
  if c = '.' then .dot else .lit c

/-- Tokenise a pattern: each atom with a `starred` flag, plus whether the
pattern ends in `$`. -/
def rtoks : List Char → List (RAtom × Bool) × Bool
  | [] => ([], false)
  | ['$'] => ([], true)
  | c :: '*' :: rest => ((ratom_of c, true) :: (rtoks rest).1, (rtoks rest).2)
  | c :: rest => ((ratom_of c, false) :: (rtoks rest).1, (rtoks rest).2)

def rmatch_fuel : Nat → List (RAtom × Bool) → Bool → List Char → Bool
  | 0, _, _, _ => false
  | fuel + 1, toks, dollar, s =>
    match toks with
    | [] =>
      if dollar then s.isEmpty || s = ['\n'] else true
    | (a, false) :: ts =>
      match s with
      | [] => false
      | c :: s2 => ratom_match a c && rmatch_fuel fuel ts dollar s2
    | (a, true) :: ts =>
      rmatch_fuel fuel ts dollar s ||
        match s with
        | [] => false
        | c :: s2 => ratom_match a c && rmatch_fuel fuel ((a, true) :: ts) dollar s2

/-- `bool(re.match(pat, s))` for the modelled fragment. -/
def py_match (pat s : String) : Bool :=
  let cs := match pat.toList with
    | '^' :: rest => rest
    | other => other
  let td := rtoks cs
  rmatch_fuel (td.1.length + s.toList.length + 1) td.1 td.2 s.toList

/-- The total matcher handed to `board` in the scenario theorems: no
pattern of the scenario raises. -/
def re_match_model (pat s : String) : Option Bool :=
  some (py_match pat s)

/-- C4: with an explicit codename (passed on the command line, or set in
the configuration when none is passed) that names an existing profile,
`board` returns that profile regardless of the hardware ID, the matcher
and the compatible list; with an explicit codename naming no profile it
fails immediately with the unknown-board condition, never falling through
to HWID or device-tree auto-detection. -/
theorem c4_explicit_override (passed config_board : Option String)
    (boards : List (String × BoardSection)) (hwid : String)
    (rem : String → String → Option Bool) (compatibles : List String)
    (c : String)
    (hres : (match passed with
      | some x => some x
      | none => config_board) = some c) :
    (∀ item, boards.find? (fun it => it.1 == c) = some item →
        board passed config_board boards hwid rem compatibles = .ok item.2)
      ∧ (boards.find? (fun it => it.1 == c) = none →
        board passed config_board boards hwid rem compatibles
          = .error (.unknownBoard c)) := by
  constructor
  · intro item hfind
    simp only [board, hres, hfind]
  · intro hfind
    simp only [board, hres, hfind]

/-- Witness for C4: codename `kevin` resolves to its profile; codename
`nonesuch` fails with the unknown-board error even though auto-detection
(a matcher that accepts everything) would have succeeded. -/
theorem c4_explicit_override_witness :
    board (some "kevin") none [("kevin", ⟨some "^GOOG", none⟩)] "GOOGX"
        (fun _ _ => some true) [] = .ok ⟨some "^GOOG", none⟩
      ∧ board (some "nonesuch") none [("kevin", ⟨some "^GOOG", none⟩)] "GOOGX"
        (fun _ _ => some true) [] = .error (.unknownBoard "nonesuch") := by
  constructor
  · exact (c4_explicit_override (some "kevin") none
      [("kevin", ⟨some "^GOOG", none⟩)] "GOOGX" (fun _ _ => some true) []
      "kevin" rfl).1 ("kevin", ⟨some "^GOOG", none⟩) (by decide)
  · exact (c4_explicit_override (some "nonesuch") none
      [("kevin", ⟨some "^GOOG", none⟩)] "GOOGX" (fun _ _ => some true) []
      "nonesuch" rfl).2 (by decide)

/-- The spec scenario's profiles: `A` matched by HWID pattern
`^GOOG.*1$`, `B` by compatible string `google,board-b`. -/
def sec_a : BoardSection := ⟨some "^GOOG.*1$", none⟩

def sec_b : BoardSection := ⟨none, some "google,board-b"⟩

def boards_ab : List (String × BoardSection) := [("A", sec_a), ("B", sec_b)]

/-- C6: in the HWID step, a profile with no `hwid-match` pattern is
skipped, a profile whose match raises is skipped (both non-fatal), and
the first profile in configuration order whose pattern matches is
returned; the pattern is applied with `re.match`, an unanchored-prefix
match (`GOOG` already matches the hardware ID `GOOGFOO1`), not a full
match.  Scenario: hardware ID `GOOGFOO1` identifies `A`; hardware ID
`ZZZ` with compatible list `[google,board-b, google,generic]` identifies
`B`. -/
theorem c6_hwid_first_prefix_match :
    (∀ (rem : String → String → Option Bool) (hwid c : String)
        (sec : BoardSection), sec.hwid_pat = none →
        hwid_match rem hwid (c, sec) = false)
      ∧ (∀ (rem : String → String → Option Bool) (hwid c pat : String)
        (sec : BoardSection), sec.hwid_pat = some pat → rem pat hwid = none →
        hwid_match rem hwid (c, sec) = false)
      ∧ (∀ (rem : String → String → Option Bool) (hwid : String)
        (boards : List (String × BoardSection)) (compatibles : List String)
        (item : String × BoardSection),
        (boards.filter (hwid_match rem hwid)).head? = some item →
        board none none boards hwid rem compatibles = .ok item.2)
      ∧ py_match "GOOG" "GOOGFOO1" = true
      ∧ py_match "^GOOG.*1$" "GOOGFOO1" = true
      ∧ board none none boards_ab "GOOGFOO1" re_match_model [] = .ok sec_a
      ∧ board none none boards_ab "ZZZ" re_match_model
          ["google,board-b", "google,generic"] = .ok sec_b := by
  refine ⟨?_, ?_, ?_, by decide, by decide, by rfl, by rfl⟩
  · intro rem hwid c sec h
    simp only [hwid_match, h]
  · intro rem hwid c pat sec h hrem
    simp only [hwid_match, h, hrem]
  · intro rem hwid boards compatibles item hhead
    simp only [board, hhead]

/-! ### The `min(..., key=compat_preference)` selection -/

/-- `m` is the first element of `l` attaining the minimal key under `f` —
Python's `min(l, key=f)`. -/
inductive FirstMin {α : Type} (f : α → Nat) : List α → α → Prop
  | head (a : α) (l : List α) : (∀ x ∈ l, f a ≤ f x) → FirstMin f (a :: l) a
  | tail (a m : α) (l : List α) : f m < f a → FirstMin f l m →
      FirstMin f (a :: l) m

theorem firstMin_le {α : Type} {f : α → Nat} {l : List α} {m : α}
    (h : FirstMin f l m) : m ∈ l ∧ ∀ x ∈ l, f m ≤ f x := by
  induction h with
  | head a l hle =>
    refine ⟨List.mem_cons_self a l, ?_⟩
    intro x hx
    rcases List.mem_cons.mp hx with rfl | hx
    · exact Nat.le_refl _
    · exact hle x hx
  | tail a m l hlt _ ih =>
    refine ⟨List.mem_cons_of_mem a ih.1, ?_⟩
    intro x hx
    rcases List.mem_cons.mp hx with rfl | hx
    · exact Nat.le_of_lt hlt
    · exact ih.2 x hx

theorem min_key_first_firstMin {α : Type} (f : α → Nat) :
    ∀ (l : List α) (a : α), FirstMin f (a :: l) (min_key_first f a l) := by
  intro l
  induction l with
  | nil =>
    intro a
    exact .head a [] (by intro x hx; cases hx)
  | cons x xs ih =>
    intro a
    show FirstMin f (a :: x :: xs)
      (min_key_first f (if f x < f a then x else a) xs)
    by_cases hx : f x < f a
    · rw [if_pos hx]
      have h2 := ih x
      have hle : f (min_key_first f x xs) ≤ f x :=
        (firstMin_le h2).2 x (List.mem_cons_self x xs)
      exact .tail a _ _ (Nat.lt_of_le_of_lt hle hx) h2
    · rw [if_neg hx]
      have h2 := ih a
      generalize hm : min_key_first f a xs = m at h2 ⊢
      cases h2 with
      | head _ _ hall =>
        refine .head a (x :: xs) ?_
        intro y hy
        rcases List.mem_cons.mp hy with rfl | hy
        · exact Nat.le_of_not_lt hx
        · exact hall y hy
      | tail _ m _ hlt hfm =>
        exact .tail a m (x :: xs) hlt
          (.tail x m xs (Nat.lt_of_lt_of_le hlt (Nat.le_of_not_lt hx)) hfm)

theorem list_index_lt_length {c : String} :
    ∀ l : List String, ∀ i, list_index c l = some i → i < l.length := by
  intro l
  induction l with
  | nil =>
    intro i h
    cases h
  | cons x xs ih =>
    intro i h
    unfold list_index at h
    by_cases hx : x = c
    · rw [if_pos hx] at h
      injection h with h
      simp only [List.length_cons]
      omega
    · rw [if_neg hx] at h
      cases hj : list_index c xs with
      | none =>
        rw [hj] at h
        cases h
      | some j =>
        rw [hj] at h
        have hji : j + 1 = i := by simpa using h
        have hlt := ih j hj
        simp only [List.length_cons]
        omega

/-- Counterexample to C5: a profile with no `dt-compatible` key and a
profile whose compatible string is absent from the list get the same
rank (the source's `float("inf")` in both `ValueError` paths of
`compat_preference`) — the no-compatible profile does not rank after the
absent-from-list profile. -/
theorem c5_rank_tie_cex :
    compat_preference ["aaa"] (some ("x", ⟨none, none⟩))
        = compat_preference ["aaa"] (some ("y", ⟨none, some "zzz"⟩))
      ∧ compat_preference ["aaa"] (some ("x", ⟨none, none⟩)) = 2
      ∧ compat_preference ["aaa"] none = 1 := by
  refine ⟨?_, ?_, ?_⟩ <;> decide

/-- C5 as amended: in the device-tree step a profile's rank is the
position of its configured compatible string in the system's compatible
list (always below the list's length); profiles whose compatible string
is absent from the list and profiles with no compatible string configured
rank equally, after all found profiles and after the `None` sentinel
(which ranks at the list's length); the selection is Python's `min`:
the first element of `None :: boards` attaining the lowest rank. -/
theorem c5_dt_rank :
    (∀ (cs : List String) (c k : String) (sec : BoardSection) (i : Nat),
        sec.dt_compat = some c → list_index c cs = some i →
        compat_preference cs (some (k, sec)) = i ∧ i < cs.length)
      ∧ (∀ (cs : List String) (c k : String) (sec : BoardSection),
        sec.dt_compat = some c → list_index c cs = none →
        compat_preference cs (some (k, sec)) = cs.length + 1)
      ∧ (∀ (cs : List String) (k : String) (sec : BoardSection),
        sec.dt_compat = none →
        compat_preference cs (some (k, sec)) = cs.length + 1)
      ∧ (∀ cs : List String, compat_preference cs none = cs.length)
      ∧ (∀ (cs : List String) (boards : List (String × BoardSection)),
        FirstMin (compat_preference cs) (none :: boards.map some)
          (min_key_first (compat_preference cs) none (boards.map some))) := by
  refine ⟨?_, ?_, ?_, ?_, ?_⟩
  · intro cs c k sec i hsec hidx
    constructor
    · simp only [compat_preference, hsec, hidx]
    · exact list_index_lt_length cs i hidx
  · intro cs c k sec hsec hidx
    simp only [compat_preference, hsec, hidx]
  · intro cs k sec hsec
    simp only [compat_preference, hsec]
  · intro cs
    rfl
  · intro cs boards
    exact min_key_first_firstMin (compat_preference cs) (boards.map some) none

/-! ### The device-tree step never returns an unfound profile -/

/-- The profile's compatible string is missing or absent from the list. -/
def dt_absent (o : Option String) (cs : List String) : Bool :=
  match o with
  | none => true
  | some c => (list_index c cs).isNone

theorem min_key_first_stays {α : Type} (f : α → Nat) :
    ∀ (l : List α) (b : α), (∀ x ∈ l, ¬ f x < f b) →
      min_key_first f b l = b := by
  intro l
  induction l with
  | nil =>
    intro b _
    rfl
  | cons x xs ih =>
    intro b h
    show min_key_first f (if f x < f b then x else b) xs = b
    rw [if_neg (h x (List.mem_cons_self x xs))]
    exact ih b (fun y hy => h y (List.mem_cons_of_mem x hy))

/-- C10: with no explicit codename and no HWID match, if every profile's
compatible string is absent from the system's compatible list (or not
configured at all), the device-tree step selects no profile — the `None`
sentinel ranks strictly below every profile — and identification fails
with the board-not-detected error instead of returning a lowest-ranked
unfound profile. -/
theorem c10_dt_unfound_not_detected
    (boards : List (String × BoardSection)) (hwid : String)
    (rem : String → String → Option Bool) (cs : List String)
    (hhw : ∀ item ∈ boards, hwid_match rem hwid item = false)
    (hdt : ∀ item ∈ boards, dt_absent item.2.dt_compat cs = true) :
    board none none boards hwid rem cs = .error .notDetected := by
  have hfil : boards.filter (hwid_match rem hwid) = [] :=
    List.filter_eq_nil_iff.mpr (fun item hm => by rw [hhw item hm]; decide)
  have hrank : ∀ x ∈ boards.map some, compat_preference cs x = cs.length + 1 := by
    intro x hx
    obtain ⟨item, hitem, rfl⟩ := List.mem_map.mp hx
    obtain ⟨k, sec⟩ := item
    have habs := hdt (k, sec) hitem
    unfold dt_absent at habs
    dsimp only at habs
    cases hsec : sec.dt_compat with
    | none =>
      simp only [compat_preference, hsec]
    | some c =>
      rw [hsec] at habs
      dsimp only at habs
      cases hidx : list_index c cs with
      | none => simp only [compat_preference, hsec, hidx]
      | some i =>
        rw [hidx] at habs
        simp at habs
  have hmin : min_key_first (compat_preference cs) none (boards.map some)
      = none := by
    apply min_key_first_stays
    intro x hx
    rw [hrank x hx]
    show ¬ cs.length + 1 < compat_preference cs none
    show ¬ cs.length + 1 < cs.length
    omega
  simp only [board, hfil, List.head?, hmin]

/-- Witness for C10: one profile whose compatible string `zzz` is not in
the list `[aaa]` — the step selects no profile and identification fails. -/
theorem c10_dt_unfound_not_detected_witness :
    board none none [("x", ⟨none, some "zzz"⟩)] "ZZZ"
        (fun _ _ => some false) ["aaa"] = .error .notDetected :=
  c10_dt_unfound_not_detected [("x", ⟨none, some "zzz"⟩)] "ZZZ"
    (fun _ _ => some false) ["aaa"] (by decide) (by decide)
